import Mathlib

/-!
Shallow embedding of the paint-resolution layer of the pathfinder renderer:
the always-sorted vector of renderer/src/sorted_vector.rs and the palette /
texture-layout builder of renderer/src/paint.rs.  Machine integers are
modelled as `Nat` (the `as u16` cast is `% 65536`, results stored in
`Fin 65536`) and `Int` (for the `i32` texture coordinates).  Fallible code
(Rust panics: out-of-bounds indexing, modulo by zero) is modelled with
`Option`.
-/

/-- Modelled from the spec: a 2-D integer point (the `i32` pair
`Point2DI32` of pathfinder_geometry; this layer only constructs points and
reads their components). -/
structure Point2DI32 where
  x : Int
  y : Int
deriving DecidableEq, Repr, Inhabited

/-- Modelled from the spec: an integer rectangle given by its origin and
size in texels (pathfinder_geometry `RectI32` as used by the palette
builder, which only ever reads `origin` and the allocated size back). -/
structure RectI32 where
  origin : Point2DI32
  size : Point2DI32
deriving DecidableEq, Repr, Inhabited

/-- RectI32::default(): the all-zero rectangle used to pre-fill the
`tex_coords` table. -/
def zeroRect : RectI32 := { origin := ⟨0, 0⟩, size := ⟨0, 0⟩ }

/-- Modelled from the spec: straight 8-bit RGBA color (pathfinder_geometry
`ColorU`; four `u8` components). -/
structure ColorU where
  r : Nat
  g : Nat
  b : Nat
  a : Nat
deriving DecidableEq, Repr, Inhabited

/-- Modelled from the spec: the derived lexicographic `PartialOrd::le` on
`ColorU` (componentwise by declaration order `r, g, b, a`). -/
def ColorU.leB (x y : ColorU) : Bool :=
  decide (x.r < y.r) ||
    (decide (x.r = y.r) &&
      (decide (x.g < y.g) ||
        (decide (x.g = y.g) &&
          (decide (x.b < y.b) ||
            (decide (x.b = y.b) && decide (x.a ≤ y.a))))))

/-- GradientStop: 16-bit fixed-point position, monotonically increasing
insertion id, and color (paint.rs). -/
structure GradientStop where
  distance : Nat
  id : Nat
  color : ColorU
deriving DecidableEq, Repr, Inhabited

/-- The derived lexicographic `PartialOrd::le` on `GradientStop`:
`distance`, then `id`, then `color`. -/
def GradientStop.leB (s t : GradientStop) : Bool :=
  decide (s.distance < t.distance) ||
    (decide (s.distance = t.distance) &&
      (decide (s.id < t.id) ||
        (decide (s.id = t.id) && ColorU.leB s.color t.color)))

/-- SortedVector (sorted_vector.rs): a vector kept in ascending order by
the insertion-sort tail fix performed on every push.  The backing `Vec<T>`
is a `List`; the element order of the list is the element order of the
vector. -/
structure SortedVector (α : Type) where
  array : List α
deriving DecidableEq, Repr

/-- SortedVector::new(). -/
def SortedVector.new (α : Type) : SortedVector α := ⟨[]⟩

/-- Vec::swap(i, j): exchange the elements at two indices (in-bounds in
every use below; out of bounds this is a no-op of the `List.set`s). -/
def vecSwap {α : Type} [Inhabited α] (l : List α) (i j : Nat) : List α :=
  (l.set i (l.getD j default)).set j (l.getD i default)

/-- The while loop of SortedVector::push, state-passing style: the `Nat`
argument is the loop variable `index` before the `index -= 1` step; the
loop exits when it reaches 0 or when the element at `index` is `<=` its
successor, otherwise it swaps them and continues. -/
def pushLoop {α : Type} [Inhabited α] (le : α → α → Bool) :
    List α → Nat → List α
  | arr, 0 => arr
  | arr, i + 1 =>
    if le (arr.getD i default) (arr.getD (i + 1) default) then arr
    else pushLoop le (vecSwap arr i (i + 1)) i

/-- SortedVector::push: append the value, then run the backward swap loop
starting at the last index.  `le` is the `PartialOrd::le` dictionary of the
element type. -/
def SortedVector.push {α : Type} [Inhabited α] (le : α → α → Bool)
    (s : SortedVector α) (v : α) : SortedVector α :=
  let arr := s.array ++ [v]
  ⟨pushLoop le arr (arr.length - 1)⟩

/-- SortedVector::pop: `Vec::pop` removes and returns the last element. -/
def SortedVector.pop {α : Type} (s : SortedVector α) :
    Option α × SortedVector α :=
  (s.array.getLast?, ⟨s.array.dropLast⟩)

/-- SortedVector::len. -/
def SortedVector.len {α : Type} (s : SortedVector α) : Nat :=
  s.array.length

/-- Repeatedly calling pop until the vector is empty, collecting the
returned elements: each step takes the last element (`getLast?`) and keeps
the rest (`dropLast`), exactly what `SortedVector.pop` does. -/
def popList {α : Type} : List α → List α
  | [] => []
  | x :: xs =>
    (x :: xs).getLast (List.cons_ne_nil x xs) :: popList ((x :: xs).dropLast)
  termination_by l => l.length
  decreasing_by simp [List.length_dropLast]

/-- Drain a SortedVector by repeated pop. -/
def popAll {α : Type} (s : SortedVector α) : List α := popList s.array

/-- Push a whole list of values into a fresh SortedVector, left to right. -/
def pushAll {α : Type} [Inhabited α] (le : α → α → Bool) (vs : List α) :
    SortedVector α :=
  vs.foldl (fun s v => s.push le v) (SortedVector.new α)

/-- Insertion of the new element into the reversed tail: the closed form of
`pushLoop` used in the proofs (the new element moves backward past every
strictly greater predecessor and stops at the first `le` one). -/
def fixRev {α : Type} (le : α → α → Bool) (v : α) : List α → List α
  | [] => [v]
  | x :: xs => if le x v then v :: x :: xs else x :: fixRev le v xs

/-- LinearGradient (paint.rs): a sorted vector of gradient stops. -/
structure LinearGradient where
  stops : SortedVector GradientStop
deriving DecidableEq, Repr

/-- LinearGradient::new(). -/
def LinearGradient.new : LinearGradient := ⟨SortedVector.new GradientStop⟩

/-- LinearGradient::add_color_stop.  The `f32` offset is modelled as a
rational; `f32::round` is `⌊x + 1/2⌋` for the non-negative offsets the
function accepts, and the `as u16` casts are `% 65536`.  (At the offsets
used by the claims, 0, 1/2 and 1, the `f32` arithmetic of the source is
exact, so the rational model agrees with it.) -/
def LinearGradient.add_color_stop (g : LinearGradient) (offset : ℚ)
    (color : ColorU) : LinearGradient :=
  let distance : Nat := (⌊offset * 65535 + 1 / 2⌋).toNat % 65536
  let id : Nat := g.stops.len % 65536
  ⟨g.stops.push GradientStop.leB ⟨distance, id, color⟩⟩

/-- Paint (paint.rs): a solid color or a linear gradient, with structural
equality. -/
inductive Paint where
  | Color (color : ColorU)
  | LinearGradient (gradient : LinearGradient)
deriving DecidableEq, Repr

/-- Default paint used as the `getD` placeholder in statements. -/
def defaultPaint : Paint := Paint.Color ⟨0, 0, 0, 0⟩

/-- PaintId (paint.rs): a `u16` handle, value produced by the `as u16`
cast of a palette index. -/
structure PaintId where
  val : Fin 65536
deriving DecidableEq, Repr

/-- Palette (paint.rs): an insertion-ordered set of unique paints
(`IndexSet<Paint>` modelled as the list of elements in insertion
order). -/
structure Palette where
  paints : List Paint
deriving DecidableEq, Repr

/-- Palette::new(). -/
def Palette.new : Palette := ⟨[]⟩

/-- IndexSet::get_full lookup: the index of the first (in an IndexSet the
only) element structurally equal to `paint`, if present. -/
def indexOfPaint (paint : Paint) : List Paint → Option Nat
  | [] => none
  | q :: rest =>
    if q = paint then some 0 else (indexOfPaint paint rest).map (· + 1)

/-- Palette::push_paint: return the existing index if the paint is already
present, otherwise append it (IndexSet::insert_full) and return the new
trailing index; either index is cast `as u16`. -/
def Palette.push_paint (pal : Palette) (paint : Paint) : PaintId × Palette :=
  match indexOfPaint paint pal.paints with
  | some i => (⟨⟨i % 65536, Nat.mod_lt _ (by decide)⟩⟩, pal)
  | none =>
    (⟨⟨pal.paints.length % 65536, Nat.mod_lt _ (by decide)⟩⟩,
      ⟨pal.paints ++ [paint]⟩)

/-- Palette::get: `IndexSet::get_index(paint_id.0 as usize)` (the `u16` to
`usize` cast is exact). -/
def Palette.get (pal : Palette) (id : PaintId) : Option Paint :=
  pal.paints[id.val.val]?

/-- BuiltPalette (paint.rs): the per-paint texture rectangle table. -/
structure BuiltPalette where
  tex_coords : List RectI32
deriving DecidableEq, Repr

/-- The gradient pass of Palette::build: walk the enumerated palette and
give every linear gradient a `256 × 1` rectangle at the cursor, advancing
the cursor one row down. -/
def gradPass : List RectI32 → Point2DI32 → List (Nat × Paint) →
    List RectI32 × Point2DI32
  | coords, cur, [] => (coords, cur)
  | coords, cur, (i, Paint.LinearGradient _) :: rest =>
    gradPass (coords.set i { origin := cur, size := ⟨256, 1⟩ })
      ⟨cur.x, cur.y + 1⟩ rest
  | coords, cur, (_, Paint.Color _) :: rest => gradPass coords cur rest

/-- The color pass of Palette::build: walk the enumerated palette and give
every solid color a `1 × 1` rectangle at the cursor, advancing the cursor
one texel right and wrapping to the next row at width 256. -/
def colorPass : List RectI32 → Point2DI32 → List (Nat × Paint) →
    List RectI32 × Point2DI32
  | coords, cur, [] => (coords, cur)
  | coords, cur, (i, Paint.Color _) :: rest =>
    let coords' := coords.set i { origin := cur, size := ⟨1, 1⟩ }
    let stepped : Point2DI32 := ⟨cur.x + 1, cur.y⟩
    let cur' : Point2DI32 :=
      if stepped.x ≥ 256 then ⟨0, stepped.y + 1⟩ else stepped
    colorPass coords' cur' rest
  | coords, cur, (_, Paint.LinearGradient _) :: rest => colorPass coords cur rest

/-- Palette::build: pre-fill one default rectangle per paint, run the
gradient pass from the origin, then the color pass from wherever the
gradient pass left the cursor. -/
def Palette.build (pal : Palette) : BuiltPalette :=
  let init := List.replicate pal.paints.length zeroRect
  let r1 := gradPass init ⟨0, 0⟩ pal.paints.enum
  let r2 := colorPass r1.1 r1.2 pal.paints.enum
  ⟨r2.1⟩

/-- Modelled from the spec: the `PaintData` pixel buffer handed to the GPU
layer, a `size.x * size.y * 4`-byte RGBA8 buffer.  The flat byte buffer is
a function from byte offset to byte value; the in-range offsets are those
below `size.x * size.y * 4`. -/
structure PaintData where
  size : Point2DI32
  texels : Nat → Nat

/-- PaintData::put_pixel (paint.rs): write the four color bytes at offset
`(y * 256 + x) * 4`.  A negative coordinate (a huge `usize` after the Rust
cast) or an offset beyond the buffer panics in the source and is `none`
here. -/
def PaintData.put_pixel (pd : PaintData) (coords : Point2DI32)
    (color : ColorU) : Option PaintData :=
  let width : Nat := 256
  let offset := (coords.y.toNat * width + coords.x.toNat) * 4
  if 0 ≤ coords.x ∧ 0 ≤ coords.y ∧
      offset + 3 < (pd.size.x.toNat * pd.size.y.toNat) * 4 then
    some { pd with
      texels := fun k =>
        if k = offset then color.r
        else if k = offset + 1 then color.g
        else if k = offset + 2 then color.b
        else if k = offset + 3 then color.a
        else pd.texels k }
  else none

/-- The inner `for x in 0..PAINT_TEXTURE_WIDTH` loop of build_paint_data:
write `stops[x % stop_count]` at texel `origin + (x, 0)`.  The stop lookup
is the source's `array[x % stop_count]` indexing; with zero stops it
panics (`none`). -/
def gradRow (pd : PaintData) (tc : RectI32) (g : LinearGradient) :
    List Nat → Option PaintData
  | [] => some pd
  | x :: rest =>
    match g.stops.array[x % g.stops.array.length]? with
    | none => none
    | some stop =>
      match pd.put_pixel ⟨tc.origin.x + (x : Int), tc.origin.y + 0⟩ stop.color with
      | none => none
      | some pd' => gradRow pd' tc g rest

/-- The outer loop of build_paint_data over the enumerated palette:
look up the paint's rectangle (`tex_coords[paint_index]`, a panic and so
`none` out of bounds), then write one pixel for a color or a full 256-texel
row for a gradient. -/
def fillLoop (bp : BuiltPalette) : PaintData → List (Nat × Paint) →
    Option PaintData
  | pd, [] => some pd
  | pd, (i, paint) :: rest =>
    match bp.tex_coords[i]? with
    | none => none
    | some tc =>
      match paint with
      | Paint.Color color =>
        match pd.put_pixel tc.origin color with
        | none => none
        | some pd' => fillLoop bp pd' rest
      | Paint.LinearGradient g =>
        match gradRow pd tc g (List.range 256) with
        | none => none
        | some pd' => fillLoop bp pd' rest

/-- BuiltPalette::build_paint_data: zero-filled 256×256 RGBA8 buffer, then
one write pass over the palette. -/
def BuiltPalette.build_paint_data (bp : BuiltPalette) (pal : Palette) :
    Option PaintData :=
  fillLoop bp { size := ⟨256, 256⟩, texels := fun _ => 0 } pal.paints.enum

/-- Whether a paint is a linear gradient. -/
def isGradient : Paint → Bool
  | Paint.LinearGradient _ => true
  | Paint.Color _ => false

/-- Whether a paint is a solid color. -/
def isColor : Paint → Bool
  | Paint.Color _ => true
  | Paint.LinearGradient _ => false

/-- Number of paints satisfying `pred` strictly before index `i`. -/
def rankOf (pred : Paint → Bool) (ps : List Paint) (i : Nat) : Nat :=
  ((ps.take i).filter pred).length

/-- Number of paints satisfying `pred` in the whole palette. -/
def countOf (pred : Paint → Bool) (ps : List Paint) : Nat :=
  (ps.filter pred).length

/-- Texel (x, y) lies inside rectangle `r`. -/
def inRect (r : RectI32) (x y : Int) : Prop :=
  r.origin.x ≤ x ∧ x < r.origin.x + r.size.x ∧
    r.origin.y ≤ y ∧ y < r.origin.y + r.size.y

/-- Two rectangles share no texel. -/
def rectDisjoint (r s : RectI32) : Prop :=
  ∀ x y : Int, inRect r x y → inRect s x y → False

/-- Rectangle lies fully inside the fixed 256×256 texture bounds. -/
def rectInBounds (r : RectI32) : Prop :=
  0 ≤ r.origin.x ∧ r.origin.x + r.size.x ≤ 256 ∧
    0 ≤ r.origin.y ∧ r.origin.y + r.size.y ≤ 256

/-- Rectangle of paint `i` in the built palette. -/
def texAt (pal : Palette) (i : Nat) : RectI32 :=
  pal.build.tex_coords.getD i zeroRect

/-- Push a list of paints into a palette in order, collecting the returned
ids. -/
def pushAllPaints (pal : Palette) : List Paint → List PaintId × Palette
  | [] => ([], pal)
  | p :: rest =>
    let r := pal.push_paint p
    let rr := pushAllPaints r.2 rest
    (r.1 :: rr.1, rr.2)

/-- The four RGBA bytes starting at byte offset `off` of a materialized
buffer, if materialization succeeded. -/
def texelBytes (o : Option PaintData) (off : Nat) :
    Option (Nat × Nat × Nat × Nat) :=
  o.map fun pd => (pd.texels off, pd.texels (off + 1),
    pd.texels (off + 2), pd.texels (off + 3))

/-! Lemmas about the palette lookup. -/

theorem indexOfPaint_eq_none {p : Paint} :
    ∀ {l : List Paint}, indexOfPaint p l = none ↔ p ∉ l := by
  intro l
  induction l with
  | nil => simp [indexOfPaint]
  | cons q rest ih =>
    by_cases h : q = p
    · simp [indexOfPaint, h]
    · simp [indexOfPaint, h, ih, Ne.symm h]

theorem indexOfPaint_append_self {p : Paint} :
    ∀ {l : List Paint}, p ∉ l → indexOfPaint p (l ++ [p]) = some l.length := by
  intro l
  induction l with
  | nil => intro _; simp [indexOfPaint]
  | cons q rest ih =>
    intro h
    have hq : q ≠ p := fun he => h (he ▸ List.mem_cons_self q rest)
    have hr : p ∉ rest := fun hm => h (List.mem_cons_of_mem q hm)
    simp [indexOfPaint, hq, ih hr]

theorem indexOfPaint_lt_length {p : Paint} :
    ∀ {l : List Paint} {i : Nat}, indexOfPaint p l = some i → i < l.length := by
  intro l
  induction l with
  | nil => intro i h; simp [indexOfPaint] at h
  | cons q rest ih =>
    intro i h
    by_cases hq : q = p
    · simp [indexOfPaint, hq] at h
      simp [List.length_cons]
      omega
    · simp [indexOfPaint, hq] at h
      obtain ⟨j, hj, rfl⟩ := h
      have := ih hj
      simp [List.length_cons]
      omega

theorem indexOfPaint_get {p : Paint} :
    ∀ {l : List Paint} {i : Nat}, indexOfPaint p l = some i → l[i]? = some p := by
  intro l
  induction l with
  | nil => intro i h; simp [indexOfPaint] at h
  | cons q rest ih =>
    intro i h
    by_cases hq : q = p
    · simp [indexOfPaint, hq] at h
      simp [← h, hq]
    · simp [indexOfPaint, hq] at h
      obtain ⟨j, hj, rfl⟩ := h
      simpa using ih hj

/-- C1: pushing the same paint twice returns the same PaintId both times
and leaves the palette untouched the second time; the size grows only on a
first push; the concrete example red, green, red yields ids 0, 1, 0 and a
palette of length 2. -/
theorem palette_push_paint_dedup (pal : Palette) (p : Paint) :
    (pal.push_paint p).2.push_paint p = ((pal.push_paint p).1, (pal.push_paint p).2) ∧
    (pal.push_paint p).2.paints.length =
      (if p ∈ pal.paints then pal.paints.length else pal.paints.length + 1) ∧
    ((Palette.new.push_paint (Paint.Color ⟨255, 0, 0, 255⟩)).1.val.val,
      ((Palette.new.push_paint (Paint.Color ⟨255, 0, 0, 255⟩)).2.push_paint
          (Paint.Color ⟨0, 255, 0, 255⟩)).1.val.val,
      (((Palette.new.push_paint (Paint.Color ⟨255, 0, 0, 255⟩)).2.push_paint
          (Paint.Color ⟨0, 255, 0, 255⟩)).2.push_paint
          (Paint.Color ⟨255, 0, 0, 255⟩)).1.val.val) = (0, 1, 0) ∧
    (((Palette.new.push_paint (Paint.Color ⟨255, 0, 0, 255⟩)).2.push_paint
        (Paint.Color ⟨0, 255, 0, 255⟩)).2.push_paint
        (Paint.Color ⟨255, 0, 0, 255⟩)).2.paints.length = 2 := by
  refine ⟨?_, ?_, by decide, by decide⟩
  · cases h : indexOfPaint p pal.paints with
    | some i => simp [Palette.push_paint, h]
    | none =>
      have hmem : p ∉ pal.paints := indexOfPaint_eq_none.1 h
      simp [Palette.push_paint, h, indexOfPaint_append_self hmem]
  · by_cases hm : p ∈ pal.paints
    · have hne : indexOfPaint p pal.paints ≠ none := fun hnone =>
        (indexOfPaint_eq_none.1 hnone) hm
      obtain ⟨i, hi⟩ := Option.ne_none_iff_exists'.1 hne
      simp [Palette.push_paint, hi, hm]
    · have h := indexOfPaint_eq_none.2 hm
      simp [Palette.push_paint, h, hm]

/-- C8: the empty palette builds to an empty rectangle table and its
materialization succeeds with the all-zero 256×256 RGBA8 buffer. -/
theorem empty_palette_build :
    Palette.new.build.tex_coords.length = 0 ∧
    Palette.new.build.build_paint_data Palette.new =
      some { size := ⟨256, 256⟩, texels := fun _ => 0 } ∧
    ∀ i : Nat, (Palette.new.build.build_paint_data Palette.new).map
      (fun pd => pd.texels i) = some 0 := by
  exact ⟨rfl, rfl, fun i => rfl⟩

/-- C9: get is a defensive bound check: an id at or beyond the palette size
yields none, an in-range id yields the stored paint at that index, every
id the registry issues is in range, and (while the palette is below the
`u16` wrap size) the issued id reads back the pushed paint. -/
theorem palette_get_spec :
    (∀ (pal : Palette) (id : PaintId),
        pal.paints.length ≤ id.val.val → pal.get id = none) ∧
    (∀ (pal : Palette) (id : PaintId), id.val.val < pal.paints.length →
        pal.get id = some (pal.paints.getD id.val.val defaultPaint)) ∧
    (∀ (pal : Palette) (p : Paint),
        ((pal.push_paint p).1).val.val < (pal.push_paint p).2.paints.length) ∧
    (∀ (pal : Palette) (p : Paint), pal.paints.length < 65536 →
        (pal.push_paint p).2.get (pal.push_paint p).1 = some p) := by
  refine ⟨?_, ?_, ?_, ?_⟩
  · intro pal id h
    simp [Palette.get, List.getElem?_eq_none h]
  · intro pal id h
    simp [Palette.get, List.getElem?_eq_getElem h, List.getD_eq_getElem?_getD,
      List.getElem?_eq_getElem h]
  · intro pal p
    cases h : indexOfPaint p pal.paints with
    | some i =>
      have hi := indexOfPaint_lt_length h
      have : i % 65536 ≤ i := Nat.mod_le _ _
      simp [Palette.push_paint, h]
      omega
    | none =>
      have : pal.paints.length % 65536 ≤ pal.paints.length := Nat.mod_le _ _
      simp [Palette.push_paint, h]
      omega
  · intro pal p hlen
    cases h : indexOfPaint p pal.paints with
    | some i =>
      have hi := indexOfPaint_lt_length h
      have hmod : i % 65536 = i := Nat.mod_eq_of_lt (by omega)
      simp [Palette.push_paint, h, Palette.get, hmod, indexOfPaint_get h]
    | none =>
      have hmod : pal.paints.length % 65536 = pal.paints.length :=
        Nat.mod_eq_of_lt hlen
      simp [Palette.push_paint, h, Palette.get, hmod]

/-- Witness for palette_get_spec at concrete inputs. -/
theorem palette_get_spec_witness :
    Palette.new.get ⟨(5 : Fin 65536)⟩ = none ∧
    (Palette.new.push_paint defaultPaint).2.get ⟨(0 : Fin 65536)⟩ =
      some ((Palette.new.push_paint defaultPaint).2.paints.getD 0 defaultPaint) ∧
    ((Palette.new.push_paint defaultPaint).1).val.val <
      (Palette.new.push_paint defaultPaint).2.paints.length ∧
    (Palette.new.push_paint defaultPaint).2.get
      (Palette.new.push_paint defaultPaint).1 = some defaultPaint := by
  exact ⟨palette_get_spec.1 _ _ (by decide),
    palette_get_spec.2.1 _ _ (by decide),
    palette_get_spec.2.2.1 _ _,
    palette_get_spec.2.2.2 _ _ (by decide)⟩

/-! The derived lexicographic order on colors and gradient stops is a
linear order; these facts instantiate the generic sorted-vector theorem at
the element type the gradients actually use. -/

theorem colorLeB_total (x y : ColorU) :
    ColorU.leB x y = true ∨ ColorU.leB y x = true := by
  simp only [ColorU.leB, Bool.or_eq_true, Bool.and_eq_true, decide_eq_true_eq]
  omega

theorem colorLeB_trans (x y z : ColorU) (h1 : ColorU.leB x y = true)
    (h2 : ColorU.leB y z = true) : ColorU.leB x z = true := by
  simp only [ColorU.leB, Bool.or_eq_true, Bool.and_eq_true,
    decide_eq_true_eq] at h1 h2 ⊢
  omega

theorem colorLeB_antisymm (x y : ColorU) (h1 : ColorU.leB x y = true)
    (h2 : ColorU.leB y x = true) : x = y := by
  have hf : x.r = y.r ∧ x.g = y.g ∧ x.b = y.b ∧ x.a = y.a := by
    simp only [ColorU.leB, Bool.or_eq_true, Bool.and_eq_true,
      decide_eq_true_eq] at h1 h2
    omega
  obtain ⟨hr, hg, hb, ha⟩ := hf
  cases x; cases y; simp_all

theorem stopLeB_total (s t : GradientStop) :
    GradientStop.leB s t = true ∨ GradientStop.leB t s = true := by
  simp only [GradientStop.leB, Bool.or_eq_true, Bool.and_eq_true,
    decide_eq_true_eq]
  rcases Nat.lt_trichotomy s.distance t.distance with h | h | h
  · exact Or.inl (Or.inl h)
  · rcases Nat.lt_trichotomy s.id t.id with h2 | h2 | h2
    · exact Or.inl (Or.inr ⟨h, Or.inl h2⟩)
    · rcases colorLeB_total s.color t.color with h3 | h3
      · exact Or.inl (Or.inr ⟨h, Or.inr ⟨h2, h3⟩⟩)
      · exact Or.inr (Or.inr ⟨h.symm, Or.inr ⟨h2.symm, h3⟩⟩)
    · exact Or.inr (Or.inr ⟨h.symm, Or.inl h2⟩)
  · exact Or.inr (Or.inl h)

theorem stopLeB_trans (s t u : GradientStop)
    (h1 : GradientStop.leB s t = true) (h2 : GradientStop.leB t u = true) :
    GradientStop.leB s u = true := by
  simp only [GradientStop.leB, Bool.or_eq_true, Bool.and_eq_true,
    decide_eq_true_eq] at h1 h2 ⊢
  rcases h1 with h1 | ⟨e1, h1⟩
  · rcases h2 with h2 | ⟨e2, h2⟩
    · exact Or.inl (by omega)
    · exact Or.inl (by omega)
  · rcases h2 with h2 | ⟨e2, h2⟩
    · exact Or.inl (by omega)
    · refine Or.inr ⟨by omega, ?_⟩
      rcases h1 with h1 | ⟨i1, h1⟩ <;> rcases h2 with h2 | ⟨i2, h2⟩
      · exact Or.inl (by omega)
      · exact Or.inl (by omega)
      · exact Or.inl (by omega)
      · exact Or.inr ⟨by omega, colorLeB_trans _ _ _ h1 h2⟩

theorem stopLeB_antisymm (s t : GradientStop)
    (h1 : GradientStop.leB s t = true) (h2 : GradientStop.leB t s = true) :
    s = t := by
  simp only [GradientStop.leB, Bool.or_eq_true, Bool.and_eq_true,
    decide_eq_true_eq] at h1 h2
  have hd : s.distance = t.distance := by
    rcases h1 with h1 | ⟨e1, _⟩ <;> rcases h2 with h2 | ⟨e2, _⟩ <;> omega
  have hi : s.id = t.id := by
    rcases h1 with h1 | ⟨e1, h1⟩ <;> rcases h2 with h2 | ⟨e2, h2⟩
    · omega
    · omega
    · omega
    · rcases h1 with h1 | ⟨i1, _⟩ <;> rcases h2 with h2 | ⟨i2, _⟩ <;> omega
  have hc : s.color = t.color := by
    rcases h1 with h1 | ⟨e1, h1⟩ <;> rcases h2 with h2 | ⟨e2, h2⟩
    · omega
    · omega
    · omega
    · rcases h1 with h1 | ⟨i1, h1⟩ <;> rcases h2 with h2 | ⟨i2, h2⟩
      · omega
      · omega
      · omega
      · exact colorLeB_antisymm _ _ h1 h2
  cases s; cases t; simp_all

/-! Closed form of the push loop. -/

theorem set_append_right_len {α : Type} :
    ∀ (l ys : List α) (k : Nat) (a : α),
      (l ++ ys).set (l.length + k) a = l ++ ys.set k a := by
  intro l
  induction l with
  | nil => intro ys k a; simp
  | cons x l ih =>
    intro ys k a
    have hlen : (x :: l).length + k = (l.length + k) + 1 := by
      simp [List.length_cons]; omega
    rw [hlen]
    show x :: ((l ++ ys).set (l.length + k) a) = x :: (l ++ ys.set k a)
    rw [ih]

theorem getD_append_right_len {α : Type} [Inhabited α]
    (l ys : List α) (k : Nat) :
    (l ++ ys).getD (l.length + k) default = ys.getD k default := by
  rw [List.getD_eq_getElem?_getD, List.getD_eq_getElem?_getD,
    List.getElem?_append_right (by omega : l.length ≤ l.length + k)]
  have hk : l.length + k - l.length = k := by omega
  rw [hk]

theorem vecSwap_append {α : Type} [Inhabited α]
    (l : List α) (x v : α) (rest : List α) :
    vecSwap (l ++ x :: v :: rest) l.length (l.length + 1) =
      l ++ v :: x :: rest := by
  unfold vecSwap
  have h1 : (l ++ x :: v :: rest).getD (l.length + 1) default = v := by
    rw [getD_append_right_len]; rfl
  have h0 : (l ++ x :: v :: rest).getD l.length default = x := by
    have : l.length = l.length + 0 := by omega
    rw [this, getD_append_right_len]; rfl
  rw [h1, h0]
  have hs0 : (l ++ x :: v :: rest).set l.length v = l ++ v :: v :: rest := by
    have : l.length = l.length + 0 := by omega
    rw [this, set_append_right_len]; rfl
  rw [hs0, set_append_right_len]
  rfl

theorem pushLoop_eq {α : Type} [Inhabited α] (le : α → α → Bool) :
    ∀ (l : List α) (v : α) (rest : List α),
      pushLoop le (l ++ v :: rest) l.length =
        (fixRev le v l.reverse).reverse ++ rest := by
  intro l
  induction l using List.reverseRecOn with
  | nil => intro v rest; simp [pushLoop, fixRev]
  | append_singleton l' x ih =>
    intro v rest
    have hlen : (l' ++ [x]).length = l'.length + 1 := by simp
    have harr : (l' ++ [x]) ++ v :: rest = l' ++ x :: v :: rest := by simp
    rw [hlen, harr]
    have hgx : (l' ++ x :: v :: rest).getD l'.length default = x := by
      have : l'.length = l'.length + 0 := by omega
      rw [this, getD_append_right_len]; rfl
    have hgv : (l' ++ x :: v :: rest).getD (l'.length + 1) default = v := by
      rw [getD_append_right_len]; rfl
    rw [pushLoop, hgx, hgv]
    by_cases hle : le x v = true
    · simp only [hle, if_true]
      simp [fixRev, hle, List.reverse_append]
    · simp only [hle, if_false, Bool.false_eq_true]
      rw [vecSwap_append, ih v (x :: rest)]
      simp [fixRev, hle, List.reverse_append]

theorem push_eq {α : Type} [Inhabited α] (le : α → α → Bool)
    (s : SortedVector α) (v : α) :
    (s.push le v).array = (fixRev le v s.array.reverse).reverse := by
  show pushLoop le (s.array ++ [v]) ((s.array ++ [v]).length - 1) = _
  have hl : (s.array ++ [v]).length - 1 = s.array.length := by simp
  rw [hl]
  simpa using pushLoop_eq le s.array v []

theorem fixRev_perm {α : Type} (le : α → α → Bool) (v : α) :
    ∀ (l : List α), List.Perm (fixRev le v l) (v :: l) := by
  intro l
  induction l with
  | nil => exact List.Perm.refl _
  | cons x xs ih =>
    by_cases h : le x v = true
    · simp [fixRev, h]
    · simp only [fixRev, h, if_false, Bool.false_eq_true]
      exact (ih.cons x).trans (List.Perm.swap v x xs)

theorem fixRev_sorted {α : Type} (le : α → α → Bool)
    (htot : ∀ a b, le a b = true ∨ le b a = true)
    (htrans : ∀ a b c, le a b = true → le b c = true → le a c = true)
    (v : α) :
    ∀ (l : List α), l.Sorted (fun a b => le b a = true) →
      (fixRev le v l).Sorted (fun a b => le b a = true) := by
  intro l
  induction l with
  | nil => intro _; simp [fixRev]
  | cons x xs ih =>
    intro hs
    rw [List.sorted_cons] at hs
    by_cases h : le x v = true
    · simp only [fixRev, h, if_true]
      rw [List.sorted_cons]
      refine ⟨?_, ?_⟩
      · intro b hb
        rcases List.mem_cons.1 hb with rfl | hb
        · exact h
        · exact htrans b x v (hs.1 b hb) h
      · rw [List.sorted_cons]
        exact hs
    · simp only [fixRev, h, if_false, Bool.false_eq_true]
      have hvx : le v x = true := (htot x v).resolve_left h
      rw [List.sorted_cons]
      refine ⟨?_, ih hs.2⟩
      intro b hb
      have hb' : b ∈ v :: xs := (fixRev_perm le v xs).mem_iff.1 hb
      rcases List.mem_cons.1 hb' with rfl | hb'
      · exact hvx
      · exact hs.1 b hb'

theorem push_perm {α : Type} [Inhabited α] (le : α → α → Bool)
    (s : SortedVector α) (v : α) :
    List.Perm (s.push le v).array (v :: s.array) := by
  rw [push_eq]
  refine (List.reverse_perm _).trans ?_
  exact (fixRev_perm le v s.array.reverse).trans
    ((s.array.reverse_perm).cons v)

theorem push_sorted {α : Type} [Inhabited α] (le : α → α → Bool)
    (htot : ∀ a b, le a b = true ∨ le b a = true)
    (htrans : ∀ a b c, le a b = true → le b c = true → le a c = true)
    (s : SortedVector α) (v : α)
    (hs : s.array.Sorted (fun a b => le a b = true)) :
    ((s.push le v).array).Sorted (fun a b => le a b = true) := by
  rw [push_eq]
  rw [List.Sorted, List.pairwise_reverse]
  apply fixRev_sorted le htot htrans
  rw [List.Sorted, List.pairwise_reverse]
  exact hs

theorem pushAll_go {α : Type} [Inhabited α] (le : α → α → Bool)
    (htot : ∀ a b, le a b = true ∨ le b a = true)
    (htrans : ∀ a b c, le a b = true → le b c = true → le a c = true) :
    ∀ (vs : List α) (s : SortedVector α),
      s.array.Sorted (fun a b => le a b = true) →
      (List.foldl (fun s v => s.push le v) s vs).array.Sorted
          (fun a b => le a b = true) ∧
        List.Perm (List.foldl (fun s v => s.push le v) s vs).array
          (s.array ++ vs) := by
  intro vs
  induction vs with
  | nil => intro s hs; exact ⟨hs, by simp⟩
  | cons v vs ih =>
    intro s hs
    have h1 := ih (s.push le v) (push_sorted le htot htrans s v hs)
    refine ⟨h1.1, ?_⟩
    refine h1.2.trans ?_
    refine (List.Perm.append_right vs (push_perm le s v)).trans ?_
    exact List.perm_middle.symm

theorem popList_eq_reverse {α : Type} : ∀ (l : List α), popList l = l.reverse := by
  have H : ∀ (n : Nat) (l : List α), l.length = n → popList l = l.reverse := by
    intro n
    induction n using Nat.strong_induction_on with
    | _ n ih =>
      intro l hl
      cases l with
      | nil => simp [popList]
      | cons x xs =>
        rw [popList]
        have hd : ((x :: xs).dropLast).length < n := by
          simp [List.length_dropLast] at hl ⊢
          omega
        rw [ih _ hd _ rfl]
        conv_rhs => rw [← List.dropLast_append_getLast
          (l := x :: xs) (List.cons_ne_nil x xs)]
        rw [List.reverse_append]
        simp
  intro l
  exact H l.length l rfl

/-- C2: for any sequence of pushed values (over any decidable total order,
in particular the gradient-stop order), the sorted vector always holds the
pushed multiset in ascending order — it equals the insertion sort of the
pushed list, independently of push order — and draining it by repeated pop
yields the reverse of that ascending sort. -/
theorem sortedVector_push_pop_spec {α : Type} [Inhabited α]
    (le : α → α → Bool)
    (htot : ∀ a b, le a b = true ∨ le b a = true)
    (htrans : ∀ a b c, le a b = true → le b c = true → le a c = true)
    (hanti : ∀ a b, le a b = true → le b a = true → a = b)
    (vs : List α) :
    (pushAll le vs).array.Sorted (fun a b => le a b = true) ∧
    List.Perm (pushAll le vs).array vs ∧
    (pushAll le vs).array =
      List.insertionSort (fun a b => le a b = true) vs ∧
    (∀ vs' : List α, List.Perm vs vs' → pushAll le vs' = pushAll le vs) ∧
    popAll (pushAll le vs) =
      (List.insertionSort (fun a b => le a b = true) vs).reverse := by
  haveI : IsTotal α (fun a b => le a b = true) := ⟨htot⟩
  haveI : IsTrans α (fun a b => le a b = true) := ⟨fun a b c => htrans a b c⟩
  haveI : IsAntisymm α (fun a b => le a b = true) := ⟨fun a b => hanti a b⟩
  have hbase : ∀ ws : List α,
      (pushAll le ws).array.Sorted (fun a b => le a b = true) ∧
        List.Perm (pushAll le ws).array ws := by
    intro ws
    have h := pushAll_go le htot htrans ws (SortedVector.new α)
      (by simp [SortedVector.new])
    exact ⟨h.1, by simpa [SortedVector.new] using h.2⟩
  have heq : ∀ ws : List α, (pushAll le ws).array =
      List.insertionSort (fun a b => le a b = true) ws := by
    intro ws
    exact List.eq_of_perm_of_sorted
      ((hbase ws).2.trans (List.perm_insertionSort _ ws).symm)
      (hbase ws).1 (List.sorted_insertionSort _ ws)
  refine ⟨(hbase vs).1, (hbase vs).2, heq vs, ?_, ?_⟩
  · intro vs' hp
    have hsorts : List.insertionSort (fun a b => le a b = true) vs' =
        List.insertionSort (fun a b => le a b = true) vs := by
      refine List.eq_of_perm_of_sorted ?_ (List.sorted_insertionSort _ vs')
        (List.sorted_insertionSort _ vs)
      exact (List.perm_insertionSort _ vs').trans
        (hp.symm.trans (List.perm_insertionSort _ vs).symm)
    have harr : (pushAll le vs').array = (pushAll le vs).array := by
      rw [heq vs', heq vs, hsorts]
    have hext : ∀ (u w : SortedVector α), u.array = w.array → u = w := by
      intro u w h
      cases u; cases w; simpa using h
    exact hext _ _ harr
  · show popList (pushAll le vs).array = _
    rw [popList_eq_reverse, heq vs]

/-- Concrete stop list used by the sorted-vector witness. -/
def demoStops : List GradientStop :=
  [⟨500, 0, ⟨1, 2, 3, 4⟩⟩, ⟨100, 1, ⟨5, 6, 7, 8⟩⟩, ⟨300, 2, ⟨9, 10, 11, 12⟩⟩,
    ⟨100, 3, ⟨13, 14, 15, 16⟩⟩]

/-- Witness for the sorted-vector theorem at the gradient-stop order and a
concrete push sequence. -/
theorem sortedVector_push_pop_spec_witness :
    (pushAll GradientStop.leB demoStops).array =
      List.insertionSort (fun a b => GradientStop.leB a b = true) demoStops ∧
    popAll (pushAll GradientStop.leB demoStops) =
      (List.insertionSort (fun a b => GradientStop.leB a b = true)
        demoStops).reverse := by
  exact ⟨(sortedVector_push_pop_spec GradientStop.leB stopLeB_total
      stopLeB_trans stopLeB_antisymm demoStops).2.2.1,
    (sortedVector_push_pop_spec GradientStop.leB stopLeB_total
      stopLeB_trans stopLeB_antisymm demoStops).2.2.2.2⟩

/-! Pushing sequences of paints. -/

theorem pushAll_fresh :
    ∀ (ps : List Paint) (acc : List Paint),
      (∀ p ∈ ps, p ∉ acc) → ps.Nodup →
      (pushAllPaints ⟨acc⟩ ps).2.paints = acc ++ ps ∧
        ((pushAllPaints ⟨acc⟩ ps).1).map (fun id => id.val.val) =
          (List.range' acc.length ps.length).map (· % 65536) := by
  intro ps
  induction ps with
  | nil => intro acc _ _; simp [pushAllPaints, List.range']
  | cons p ps ih =>
    intro acc hfresh hnd
    have hpacc : p ∉ acc := hfresh p (List.mem_cons_self p ps)
    have hnone : indexOfPaint p acc = none := indexOfPaint_eq_none.2 hpacc
    have hnd' : ps.Nodup := (List.nodup_cons.1 hnd).2
    have hpps : p ∉ ps := (List.nodup_cons.1 hnd).1
    have hfresh' : ∀ q ∈ ps, q ∉ acc ++ [p] := by
      intro q hq hmem
      rcases List.mem_append.1 hmem with hq' | hq'
      · exact hfresh q (List.mem_cons_of_mem p hq) hq'
      · rcases List.mem_singleton.1 hq' with rfl
        exact hpps hq
    have hih := ih (acc ++ [p]) hfresh' hnd'
    have hred : pushAllPaints ⟨acc⟩ (p :: ps) =
        ((⟨⟨acc.length % 65536, Nat.mod_lt _ (by decide)⟩⟩ : PaintId) ::
            (pushAllPaints ⟨acc ++ [p]⟩ ps).1,
          (pushAllPaints ⟨acc ++ [p]⟩ ps).2) := by
      simp [pushAllPaints, Palette.push_paint, hnone]
    constructor
    · rw [hred]
      dsimp only
      rw [hih.1]
      simp
    · rw [hred]
      dsimp only
      rw [List.map_cons, hih.2]
      have hl : (p :: ps).length = ps.length + 1 := rfl
      rw [hl, List.range'_succ acc.length ps.length 1]
      simp

/-- C10: push_paint returns the insertion index cast `as u16`
(`index % 65536`); the ids of a run of pairwise-distinct pushes are the
indices reduced mod 2^16, they are pairwise distinct only while the
palette holds at most 65536 paints, and past that bound two distinct
paints (indices 0 and 65536) receive the same PaintId. -/
theorem paint_id_wraparound (ps : List Paint) (hnd : ps.Nodup) :
    ((pushAllPaints Palette.new ps).1).map (fun id => id.val.val) =
      (List.range ps.length).map (· % 65536) ∧
    (ps.length ≤ 65536 → ((pushAllPaints Palette.new ps).1).Nodup) ∧
    (65536 < ps.length →
      (((pushAllPaints Palette.new ps).1).map (fun id => id.val.val)).getD 0 0 =
        (((pushAllPaints Palette.new ps).1).map
          (fun id => id.val.val)).getD 65536 0 ∧
      ps.getD 0 defaultPaint ≠ ps.getD 65536 defaultPaint) := by
  have hmap : ((pushAllPaints Palette.new ps).1).map (fun id => id.val.val) =
      (List.range ps.length).map (· % 65536) := by
    have h := (pushAll_fresh ps [] (by simp) hnd).2
    rw [List.range_eq_range' ps.length]
    simpa using h
  refine ⟨hmap, ?_, ?_⟩
  · intro hle
    have hrange : ((pushAllPaints Palette.new ps).1).map
        (fun id => id.val.val) = List.range ps.length := by
      rw [hmap]
      have : ∀ k ∈ List.range ps.length, k % 65536 = k := by
        intro k hk
        have := List.mem_range.1 hk
        exact Nat.mod_eq_of_lt (by omega)
      calc (List.range ps.length).map (· % 65536)
          = (List.range ps.length).map id := List.map_congr_left this
        _ = List.range ps.length := List.map_id _
    exact List.Nodup.of_map _ (hrange ▸ List.nodup_range ps.length)
  · intro hgt
    have hgetD : ∀ k, k < ps.length →
        (((pushAllPaints Palette.new ps).1).map
          (fun id => id.val.val)).getD k 0 = k % 65536 := by
      intro k hk
      rw [hmap, List.getD_eq_getElem?_getD]
      simp [List.getElem?_range, hk]
    refine ⟨?_, ?_⟩
    · rw [hgetD 0 (by omega), hgetD 65536 (by omega)]
    · intro heq
      have h0 : (0 : Nat) < ps.length := by omega
      rw [List.getD_eq_getElem ps defaultPaint h0,
        List.getD_eq_getElem ps defaultPaint hgt] at heq
      have hinj := List.nodup_iff_injective_get.1 hnd
      have : (⟨0, h0⟩ : Fin ps.length) = ⟨65536, hgt⟩ := by
        apply hinj
        rw [List.get_eq_getElem, List.get_eq_getElem]
        exact heq
      have := congrArg Fin.val this
      simp at this

/-- Witness for paint_id_wraparound at a concrete two-paint push run. -/
theorem paint_id_wraparound_witness :
    ((pushAllPaints Palette.new
        [Paint.Color ⟨255, 0, 0, 255⟩, Paint.Color ⟨0, 255, 0, 255⟩]).1).map
        (fun id => id.val.val) =
      (List.range
        ([Paint.Color ⟨255, 0, 0, 255⟩,
          Paint.Color ⟨0, 255, 0, 255⟩] : List Paint).length).map (· % 65536) ∧
    (([Paint.Color ⟨255, 0, 0, 255⟩,
        Paint.Color ⟨0, 255, 0, 255⟩] : List Paint).length ≤ 65536 →
      ((pushAllPaints Palette.new
        [Paint.Color ⟨255, 0, 0, 255⟩, Paint.Color ⟨0, 255, 0, 255⟩]).1).Nodup) := by
  have h := paint_id_wraparound
    [Paint.Color ⟨255, 0, 0, 255⟩, Paint.Color ⟨0, 255, 0, 255⟩] (by decide)
  exact ⟨h.1, h.2.1⟩

theorem pushAll_extends :
    ∀ (qs : List Paint) (pal : Palette),
      ∃ t, (pushAllPaints pal qs).2.paints = pal.paints ++ t := by
  intro qs
  induction qs with
  | nil => intro pal; exact ⟨[], by simp [pushAllPaints]⟩
  | cons q qs ih =>
    intro pal
    cases h : indexOfPaint q pal.paints with
    | some i =>
      obtain ⟨t, ht⟩ := ih pal
      refine ⟨t, ?_⟩
      have hred : pushAllPaints pal (q :: qs) =
          ((⟨⟨i % 65536, Nat.mod_lt _ (by decide)⟩⟩ : PaintId) ::
              (pushAllPaints pal qs).1, (pushAllPaints pal qs).2) := by
        simp [pushAllPaints, Palette.push_paint, h]
      rw [hred]
      exact ht
    | none =>
      obtain ⟨t, ht⟩ := ih ⟨pal.paints ++ [q]⟩
      refine ⟨q :: t, ?_⟩
      have hred : pushAllPaints pal (q :: qs) =
          ((⟨⟨pal.paints.length % 65536, Nat.mod_lt _ (by decide)⟩⟩ : PaintId) ::
              (pushAllPaints ⟨pal.paints ++ [q]⟩ qs).1,
            (pushAllPaints ⟨pal.paints ++ [q]⟩ qs).2) := by
        simp [pushAllPaints, Palette.push_paint, h]
      rw [hred]
      dsimp only
      rw [ht]
      simp

/-- C3: after pushing pairwise-distinct paints p0..pn into a fresh palette,
`get (PaintId i)` returns pi for every index i that a `u16` id can carry,
and this persists after any further push_paint calls. -/
theorem palette_index_stability (ps qs : List Paint) (hnd : ps.Nodup)
    (i : Nat) (hi : i < ps.length) (hfit : i < 65536) :
    ((pushAllPaints (pushAllPaints Palette.new ps).2 qs).2).get ⟨⟨i, hfit⟩⟩ =
      some (ps.getD i defaultPaint) := by
  have hps : (pushAllPaints Palette.new ps).2.paints = ps := by
    have h := (pushAll_fresh ps [] (by simp) hnd).1
    simpa [Palette.new] using h
  obtain ⟨t, ht⟩ := pushAll_extends qs (pushAllPaints Palette.new ps).2
  show ((pushAllPaints (pushAllPaints Palette.new ps).2 qs).2).paints[i]? = _
  rw [ht, hps, List.getElem?_append_left hi, List.getElem?_eq_getElem hi,
    List.getD_eq_getElem ps defaultPaint hi]

/-- Witness for palette_index_stability: a two-paint palette read back at
index 1 after two further pushes. -/
theorem palette_index_stability_witness :
    ((pushAllPaints (pushAllPaints Palette.new
        [Paint.Color ⟨255, 0, 0, 255⟩, Paint.Color ⟨0, 255, 0, 255⟩]).2
        [Paint.Color ⟨255, 0, 0, 255⟩, Paint.Color ⟨9, 9, 9, 9⟩]).2).get
        ⟨(1 : Fin 65536)⟩ =
      some (([Paint.Color ⟨255, 0, 0, 255⟩,
        Paint.Color ⟨0, 255, 0, 255⟩] : List Paint).getD 1 defaultPaint) := by
  exact palette_index_stability
    [Paint.Color ⟨255, 0, 0, 255⟩, Paint.Color ⟨0, 255, 0, 255⟩]
    [Paint.Color ⟨255, 0, 0, 255⟩, Paint.Color ⟨9, 9, 9, 9⟩]
    (by decide) 1 (by decide) (by decide)

/-! Rank and count lemmas for the layout characterization. -/

theorem rankOf_zero (pred : Paint → Bool) (ps : List Paint) :
    rankOf pred ps 0 = 0 := by
  simp [rankOf]

theorem rankOf_cons_pos {pred : Paint → Bool} {p : Paint} (ps : List Paint)
    (m : Nat) (hp : pred p = true) :
    rankOf pred (p :: ps) (m + 1) = rankOf pred ps m + 1 := by
  simp [rankOf, List.take_succ_cons, List.filter_cons, hp]

theorem rankOf_cons_neg {pred : Paint → Bool} {p : Paint} (ps : List Paint)
    (m : Nat) (hp : pred p = false) :
    rankOf pred (p :: ps) (m + 1) = rankOf pred ps m := by
  simp [rankOf, List.take_succ_cons, List.filter_cons, hp]

theorem countOf_cons_pos {pred : Paint → Bool} {p : Paint} (ps : List Paint)
    (hp : pred p = true) : countOf pred (p :: ps) = countOf pred ps + 1 := by
  simp [countOf, List.filter_cons, hp]

theorem countOf_cons_neg {pred : Paint → Bool} {p : Paint} (ps : List Paint)
    (hp : pred p = false) : countOf pred (p :: ps) = countOf pred ps := by
  simp [countOf, List.filter_cons, hp]

theorem rankOf_lt_countOf (pred : Paint → Bool) (ps : List Paint) (i : Nat)
    (hi : i < ps.length) (hp : pred (ps.getD i defaultPaint) = true) :
    rankOf pred ps i < countOf pred ps := by
  rw [List.getD_eq_getElem ps defaultPaint hi] at hp
  have hdrop : List.drop i ps = ps[i] :: List.drop (i + 1) ps :=
    List.drop_eq_getElem_cons hi
  have hsplit : countOf pred ps =
      rankOf pred ps i + (List.filter pred (List.drop i ps)).length := by
    unfold countOf rankOf
    conv_lhs => rw [← List.take_append_drop i ps]
    rw [List.filter_append, List.length_append]
  rw [hsplit, hdrop, List.filter_cons, hp]
  simp

theorem rankOf_lt_rankOf (pred : Paint → Bool) (ps : List Paint) (i j : Nat)
    (hij : i < j) (hi : i < ps.length)
    (hp : pred (ps.getD i defaultPaint) = true) :
    rankOf pred ps i < rankOf pred ps j := by
  rw [List.getD_eq_getElem ps defaultPaint hi] at hp
  have hdrop : List.drop i ps = ps[i] :: List.drop (i + 1) ps :=
    List.drop_eq_getElem_cons hi
  have hj : j = i + (j - i) := by omega
  have hsplit : rankOf pred ps j =
      rankOf pred ps i +
        (List.filter pred (List.take (j - i) (List.drop i ps))).length := by
    unfold rankOf
    rw [hj, List.take_add, List.filter_append, List.length_append]
    simp [Nat.add_sub_cancel_left]
  have hji : j - i = (j - i - 1) + 1 := by omega
  rw [hsplit, hdrop, hji, List.take_succ_cons, List.filter_cons, hp]
  simp

/-! Lengths and cursors of the two layout passes. -/

theorem gradPass_length :
    ∀ (l : List (Nat × Paint)) (coords : List RectI32) (cur : Point2DI32),
      (gradPass coords cur l).1.length = coords.length := by
  intro l
  induction l with
  | nil => intro coords cur; rfl
  | cons hd tl ih =>
    intro coords cur
    obtain ⟨i, p⟩ := hd
    cases p with
    | Color c => simpa [gradPass] using ih coords cur
    | LinearGradient g =>
      simpa [gradPass] using
        ih (coords.set i { origin := cur, size := ⟨256, 1⟩ }) ⟨cur.x, cur.y + 1⟩

theorem colorPass_length :
    ∀ (l : List (Nat × Paint)) (coords : List RectI32) (cur : Point2DI32),
      (colorPass coords cur l).1.length = coords.length := by
  intro l
  induction l with
  | nil => intro coords cur; rfl
  | cons hd tl ih =>
    intro coords cur
    obtain ⟨i, p⟩ := hd
    cases p with
    | LinearGradient g => simpa [colorPass] using ih coords cur
    | Color c =>
      by_cases hx : cur.x + 1 ≥ 256
      · simpa [colorPass, hx] using
          ih (coords.set i { origin := cur, size := ⟨1, 1⟩ }) ⟨0, cur.y + 1⟩
      · simpa [colorPass, hx] using
          ih (coords.set i { origin := cur, size := ⟨1, 1⟩ }) ⟨cur.x + 1, cur.y⟩

theorem gradPass_cursor :
    ∀ (ps : List Paint) (k : Nat) (coords : List RectI32) (cur : Point2DI32),
      (gradPass coords cur (List.enumFrom k ps)).2 =
        ⟨cur.x, cur.y + (countOf isGradient ps : Int)⟩ := by
  intro ps
  induction ps with
  | nil =>
    intro k coords cur
    obtain ⟨cx, cy⟩ := cur
    simp [gradPass, List.enumFrom, countOf]
  | cons p ps ih =>
    intro k coords cur
    cases p with
    | Color c =>
      rw [show List.enumFrom k (Paint.Color c :: ps) =
          (k, Paint.Color c) :: List.enumFrom (k + 1) ps from rfl]
      rw [show gradPass coords cur ((k, Paint.Color c) :: List.enumFrom (k + 1) ps) =
          gradPass coords cur (List.enumFrom (k + 1) ps) from rfl]
      rw [ih (k + 1) coords cur, countOf_cons_neg ps (by rfl)]
    | LinearGradient g =>
      rw [show List.enumFrom k (Paint.LinearGradient g :: ps) =
          (k, Paint.LinearGradient g) :: List.enumFrom (k + 1) ps from rfl]
      rw [show gradPass coords cur
            ((k, Paint.LinearGradient g) :: List.enumFrom (k + 1) ps) =
          gradPass (coords.set k { origin := cur, size := ⟨256, 1⟩ })
            ⟨cur.x, cur.y + 1⟩ (List.enumFrom (k + 1) ps) from rfl]
      rw [ih (k + 1) _ _, countOf_cons_pos ps (by rfl)]
      simp [Point2DI32.mk.injEq]
      ring

/-- Characterization of the gradient pass: an index addressed by the
enumerated batch whose paint is a gradient gets a fresh 256×1 row at the
cursor offset by its gradient rank; every other index is untouched. -/
theorem gradPass_get :
    ∀ (ps : List Paint) (k : Nat) (coords : List RectI32) (cur : Point2DI32),
      k + ps.length ≤ coords.length →
      ∀ j : Nat,
        ((gradPass coords cur (List.enumFrom k ps)).1)[j]? =
          (if k ≤ j ∧ ((ps[j - k]?).any isGradient = true)
            then some (RectI32.mk
              ⟨cur.x, cur.y + (rankOf isGradient ps (j - k) : Int)⟩ ⟨256, 1⟩)
            else coords[j]?) := by
  intro ps
  induction ps with
  | nil =>
    intro k coords cur _ j
    simp [gradPass, List.enumFrom]
  | cons p ps ih =>
    intro k coords cur hlen j
    have hlen' : k < coords.length := by
      simp [List.length_cons] at hlen
      omega
    have hlen'' : (k + 1) + ps.length ≤ coords.length := by
      simp [List.length_cons] at hlen
      omega
    rw [show List.enumFrom k (p :: ps) = (k, p) :: List.enumFrom (k + 1) ps
      from rfl]
    cases p with
    | LinearGradient g =>
      rw [show gradPass coords cur
            ((k, Paint.LinearGradient g) :: List.enumFrom (k + 1) ps) =
          gradPass (coords.set k { origin := cur, size := ⟨256, 1⟩ })
            ⟨cur.x, cur.y + 1⟩ (List.enumFrom (k + 1) ps) from rfl]
      rw [ih (k + 1) _ _ (by simpa using hlen'') j]
      rcases Nat.lt_trichotomy j k with hjk | rfl | hjk
      · have hc1 : ¬((k + 1) ≤ j ∧ ((ps[j - (k + 1)]?).any isGradient = true)) := by
          intro hc
          omega
        have hc2 : ¬(k ≤ j ∧
            (((Paint.LinearGradient g :: ps)[j - k]?).any isGradient = true)) := by
          intro hc
          omega
        rw [if_neg hc1, if_neg hc2]
        exact List.getElem?_set_ne (by omega)
      · have hc1 : ¬((j + 1) ≤ j ∧ ((ps[j - (j + 1)]?).any isGradient = true)) := by
          intro hc
          omega
        rw [if_neg hc1]
        have hc2 : j ≤ j ∧
            (((Paint.LinearGradient g :: ps)[j - j]?).any isGradient = true) := by
          refine ⟨Nat.le_refl j, ?_⟩
          simp [Nat.sub_self, isGradient]
        rw [if_pos hc2]
        have hset : (coords.set j { origin := cur, size := ⟨256, 1⟩ })[j]? =
            some { origin := cur, size := ⟨256, 1⟩ } := by
          simp [List.getElem?_set_self', hlen']
        rw [hset]
        simp [Nat.sub_self, rankOf_zero]
      · have hsub : j - k = (j - (k + 1)) + 1 := by omega
        have hshift : ((Paint.LinearGradient g :: ps)[j - k]?) =
            ps[j - (k + 1)]? := by
          rw [hsub, List.getElem?_cons_succ]
        by_cases hany : ((ps[j - (k + 1)]?).any isGradient) = true
        · rw [if_pos ⟨by omega, hany⟩, if_pos ⟨by omega, by rw [hshift]; exact hany⟩]
          rw [hsub, rankOf_cons_pos ps (j - (k + 1)) (by rfl)]
          simp only [Option.some.injEq, RectI32.mk.injEq, Point2DI32.mk.injEq,
            and_true, true_and]
          push_cast
          ring
        · have hc1 : ¬((k + 1) ≤ j ∧ ((ps[j - (k + 1)]?).any isGradient = true)) := by
            intro hc
            exact hany hc.2
          have hc2 : ¬(k ≤ j ∧
              (((Paint.LinearGradient g :: ps)[j - k]?).any isGradient = true)) := by
            intro hc
            rw [hshift] at hc
            exact hany hc.2
          rw [if_neg hc1, if_neg hc2]
          exact List.getElem?_set_ne (by omega)
    | Color c =>
      rw [show gradPass coords cur
            ((k, Paint.Color c) :: List.enumFrom (k + 1) ps) =
          gradPass coords cur (List.enumFrom (k + 1) ps) from rfl]
      rw [ih (k + 1) _ _ (by simpa using hlen'') j]
      rcases Nat.lt_trichotomy j k with hjk | rfl | hjk
      · have hc1 : ¬((k + 1) ≤ j ∧ ((ps[j - (k + 1)]?).any isGradient = true)) := by
          intro hc
          omega
        have hc2 : ¬(k ≤ j ∧
            (((Paint.Color c :: ps)[j - k]?).any isGradient = true)) := by
          intro hc
          omega
        rw [if_neg hc1, if_neg hc2]
      · have hc1 : ¬((j + 1) ≤ j ∧ ((ps[j - (j + 1)]?).any isGradient = true)) := by
          intro hc
          omega
        have hc2 : ¬(j ≤ j ∧
            (((Paint.Color c :: ps)[j - j]?).any isGradient = true)) := by
          intro hc
          have := hc.2
          rw [Nat.sub_self] at this
          simp [isGradient] at this
        rw [if_neg hc1, if_neg hc2]
      · have hsub : j - k = (j - (k + 1)) + 1 := by omega
        have hshift : ((Paint.Color c :: ps)[j - k]?) = ps[j - (k + 1)]? := by
          rw [hsub, List.getElem?_cons_succ]
        by_cases hany : ((ps[j - (k + 1)]?).any isGradient) = true
        · rw [if_pos ⟨by omega, hany⟩, if_pos ⟨by omega, by rw [hshift]; exact hany⟩]
          rw [hsub, rankOf_cons_neg ps (j - (k + 1)) (by rfl)]
        · have hc1 : ¬((k + 1) ≤ j ∧ ((ps[j - (k + 1)]?).any isGradient = true)) := by
            intro hc
            exact hany hc.2
          have hc2 : ¬(k ≤ j ∧
              (((Paint.Color c :: ps)[j - k]?).any isGradient = true)) := by
            intro hc
            rw [hshift] at hc
            exact hany hc.2
          rw [if_neg hc1, if_neg hc2]

/-- Characterization of the color pass: an index addressed by the
enumerated batch whose paint is a color gets the 1×1 texel reached by
advancing the (in-row) cursor by its color rank, wrapping every 256
texels; every other index is untouched. -/
theorem colorPass_get :
    ∀ (ps : List Paint) (k : Nat) (coords : List RectI32) (cur : Point2DI32),
      0 ≤ cur.x → cur.x < 256 →
      k + ps.length ≤ coords.length →
      ∀ j : Nat,
        ((colorPass coords cur (List.enumFrom k ps)).1)[j]? =
          (if k ≤ j ∧ ((ps[j - k]?).any isColor = true)
            then some (RectI32.mk
              ⟨(cur.x + (rankOf isColor ps (j - k) : Int)) % 256,
                cur.y + (cur.x + (rankOf isColor ps (j - k) : Int)) / 256⟩
              ⟨1, 1⟩)
            else coords[j]?) := by
  intro ps
  induction ps with
  | nil =>
    intro k coords cur _ _ _ j
    simp [colorPass, List.enumFrom]
  | cons p ps ih =>
    intro k coords cur hx0 hx256 hlen j
    have hlen' : k < coords.length := by
      simp [List.length_cons] at hlen
      omega
    have hlen'' : (k + 1) + ps.length ≤ coords.length := by
      simp [List.length_cons] at hlen
      omega
    rw [show List.enumFrom k (p :: ps) = (k, p) :: List.enumFrom (k + 1) ps
      from rfl]
    cases p with
    | Color c =>
      by_cases hwrap : cur.x + 1 ≥ 256
      · have hstep : colorPass coords cur
              ((k, Paint.Color c) :: List.enumFrom (k + 1) ps) =
            colorPass (coords.set k { origin := cur, size := ⟨1, 1⟩ })
              ⟨0, cur.y + 1⟩ (List.enumFrom (k + 1) ps) := by
          simp only [colorPass]
          rw [if_pos hwrap]
        rw [hstep]
        rw [ih (k + 1) _ _ (by norm_num) (by norm_num)
          (by simpa using hlen'') j]
        have hx255 : cur.x = 255 := by omega
        rcases Nat.lt_trichotomy j k with hjk | rfl | hjk
        · have hc1 : ¬((k + 1) ≤ j ∧ ((ps[j - (k + 1)]?).any isColor = true)) := by
            intro hc
            omega
          have hc2 : ¬(k ≤ j ∧
              (((Paint.Color c :: ps)[j - k]?).any isColor = true)) := by
            intro hc
            omega
          rw [if_neg hc1, if_neg hc2]
          exact List.getElem?_set_ne (by omega)
        · have hc1 : ¬((j + 1) ≤ j ∧ ((ps[j - (j + 1)]?).any isColor = true)) := by
            intro hc
            omega
          rw [if_neg hc1]
          have hc2 : j ≤ j ∧
              (((Paint.Color c :: ps)[j - j]?).any isColor = true) := by
            refine ⟨Nat.le_refl j, ?_⟩
            simp [Nat.sub_self, isColor]
          rw [if_pos hc2]
          have hset : (coords.set j { origin := cur, size := ⟨1, 1⟩ })[j]? =
              some { origin := cur, size := ⟨1, 1⟩ } := by
            simp [List.getElem?_set_self', hlen']
          rw [hset]
          have hm : cur.x % 256 = cur.x := Int.emod_eq_of_lt hx0 hx256
          have hd : cur.x / 256 = 0 := Int.ediv_eq_zero_of_lt hx0 hx256
          simp [Nat.sub_self, rankOf_zero, hm, hd]
        · have hsub : j - k = (j - (k + 1)) + 1 := by omega
          have hshift : ((Paint.Color c :: ps)[j - k]?) = ps[j - (k + 1)]? := by
            rw [hsub, List.getElem?_cons_succ]
          by_cases hany : ((ps[j - (k + 1)]?).any isColor) = true
          · rw [if_pos ⟨by omega, hany⟩,
              if_pos ⟨by omega, by rw [hshift]; exact hany⟩]
            rw [hsub, rankOf_cons_pos ps (j - (k + 1)) (by rfl)]
            simp only [Option.some.injEq, RectI32.mk.injEq, Point2DI32.mk.injEq,
              and_true, true_and]
            push_cast
            constructor
            · omega
            · omega
          · have hc1 : ¬((k + 1) ≤ j ∧ ((ps[j - (k + 1)]?).any isColor = true)) := by
              intro hc
              exact hany hc.2
            have hc2 : ¬(k ≤ j ∧
                (((Paint.Color c :: ps)[j - k]?).any isColor = true)) := by
              intro hc
              rw [hshift] at hc
              exact hany hc.2
            rw [if_neg hc1, if_neg hc2]
            exact List.getElem?_set_ne (by omega)
      · have hstep : colorPass coords cur
              ((k, Paint.Color c) :: List.enumFrom (k + 1) ps) =
            colorPass (coords.set k { origin := cur, size := ⟨1, 1⟩ })
              ⟨cur.x + 1, cur.y⟩ (List.enumFrom (k + 1) ps) := by
          simp only [colorPass]
          rw [if_neg hwrap]
        rw [hstep]
        rw [ih (k + 1) _ _ (by simp; omega) (by simp; omega)
          (by simpa using hlen'') j]
        rcases Nat.lt_trichotomy j k with hjk | rfl | hjk
        · have hc1 : ¬((k + 1) ≤ j ∧ ((ps[j - (k + 1)]?).any isColor = true)) := by
            intro hc
            omega
          have hc2 : ¬(k ≤ j ∧
              (((Paint.Color c :: ps)[j - k]?).any isColor = true)) := by
            intro hc
            omega
          rw [if_neg hc1, if_neg hc2]
          exact List.getElem?_set_ne (by omega)
        · have hc1 : ¬((j + 1) ≤ j ∧ ((ps[j - (j + 1)]?).any isColor = true)) := by
            intro hc
            omega
          rw [if_neg hc1]
          have hc2 : j ≤ j ∧
              (((Paint.Color c :: ps)[j - j]?).any isColor = true) := by
            refine ⟨Nat.le_refl j, ?_⟩
            simp [Nat.sub_self, isColor]
          rw [if_pos hc2]
          have hset : (coords.set j { origin := cur, size := ⟨1, 1⟩ })[j]? =
              some { origin := cur, size := ⟨1, 1⟩ } := by
            simp [List.getElem?_set_self', hlen']
          rw [hset]
          have hm : cur.x % 256 = cur.x := Int.emod_eq_of_lt hx0 hx256
          have hd : cur.x / 256 = 0 := Int.ediv_eq_zero_of_lt hx0 hx256
          simp [Nat.sub_self, rankOf_zero, hm, hd]
        · have hsub : j - k = (j - (k + 1)) + 1 := by omega
          have hshift : ((Paint.Color c :: ps)[j - k]?) = ps[j - (k + 1)]? := by
            rw [hsub, List.getElem?_cons_succ]
          by_cases hany : ((ps[j - (k + 1)]?).any isColor) = true
          · rw [if_pos ⟨by omega, hany⟩,
              if_pos ⟨by omega, by rw [hshift]; exact hany⟩]
            rw [hsub, rankOf_cons_pos ps (j - (k + 1)) (by rfl)]
            simp only [Option.some.injEq, RectI32.mk.injEq, Point2DI32.mk.injEq,
              and_true, true_and]
            push_cast
            constructor
            · omega
            · omega
          · have hc1 : ¬((k + 1) ≤ j ∧ ((ps[j - (k + 1)]?).any isColor = true)) := by
              intro hc
              exact hany hc.2
            have hc2 : ¬(k ≤ j ∧
                (((Paint.Color c :: ps)[j - k]?).any isColor = true)) := by
              intro hc
              rw [hshift] at hc
              exact hany hc.2
            rw [if_neg hc1, if_neg hc2]
            exact List.getElem?_set_ne (by omega)
    | LinearGradient g =>
      rw [show colorPass coords cur
            ((k, Paint.LinearGradient g) :: List.enumFrom (k + 1) ps) =
          colorPass coords cur (List.enumFrom (k + 1) ps) from rfl]
      rw [ih (k + 1) _ _ hx0 hx256 (by simpa using hlen'') j]
      rcases Nat.lt_trichotomy j k with hjk | rfl | hjk
      · have hc1 : ¬((k + 1) ≤ j ∧ ((ps[j - (k + 1)]?).any isColor = true)) := by
          intro hc
          omega
        have hc2 : ¬(k ≤ j ∧
            (((Paint.LinearGradient g :: ps)[j - k]?).any isColor = true)) := by
          intro hc
          omega
        rw [if_neg hc1, if_neg hc2]
      · have hc1 : ¬((j + 1) ≤ j ∧ ((ps[j - (j + 1)]?).any isColor = true)) := by
          intro hc
          omega
        have hc2 : ¬(j ≤ j ∧
            (((Paint.LinearGradient g :: ps)[j - j]?).any isColor = true)) := by
          intro hc
          have := hc.2
          rw [Nat.sub_self] at this
          simp [isColor] at this
        rw [if_neg hc1, if_neg hc2]
      · have hsub : j - k = (j - (k + 1)) + 1 := by omega
        have hshift : ((Paint.LinearGradient g :: ps)[j - k]?) =
            ps[j - (k + 1)]? := by
          rw [hsub, List.getElem?_cons_succ]
        by_cases hany : ((ps[j - (k + 1)]?).any isColor) = true
        · rw [if_pos ⟨by omega, hany⟩,
            if_pos ⟨by omega, by rw [hshift]; exact hany⟩]
          rw [hsub, rankOf_cons_neg ps (j - (k + 1)) (by rfl)]
        · have hc1 : ¬((k + 1) ≤ j ∧ ((ps[j - (k + 1)]?).any isColor = true)) := by
            intro hc
            exact hany hc.2
          have hc2 : ¬(k ≤ j ∧
              (((Paint.LinearGradient g :: ps)[j - k]?).any isColor = true)) := by
            intro hc
            rw [hshift] at hc
            exact hany hc.2
          rw [if_neg hc1, if_neg hc2]

theorem build_length (pal : Palette) :
    pal.build.tex_coords.length = pal.paints.length := by
  simp only [Palette.build]
  rw [colorPass_length, gradPass_length, List.length_replicate]

/-- Full characterization of the layout: a gradient at palette index i gets
the 256×1 row numbered by its gradient rank; a color gets the 1×1 texel at
color-rank positions past the end of the gradient rows. -/
theorem build_getElem (pal : Palette) (i : Nat) (hi : i < pal.paints.length) :
    pal.build.tex_coords[i]? =
      some (if isGradient (pal.paints.getD i defaultPaint) = true
        then RectI32.mk ⟨0, (rankOf isGradient pal.paints i : Int)⟩ ⟨256, 1⟩
        else RectI32.mk
          ⟨(rankOf isColor pal.paints i : Int) % 256,
            (countOf isGradient pal.paints : Int) +
              (rankOf isColor pal.paints i : Int) / 256⟩ ⟨1, 1⟩) := by
  have henum : pal.paints.enum = List.enumFrom 0 pal.paints := rfl
  simp only [Palette.build, henum]
  have hcur : (gradPass (List.replicate pal.paints.length zeroRect) ⟨0, 0⟩
      (List.enumFrom 0 pal.paints)).2 =
      ⟨0, (countOf isGradient pal.paints : Int)⟩ := by
    rw [gradPass_cursor]
    simp
  have hglen : (gradPass (List.replicate pal.paints.length zeroRect) ⟨0, 0⟩
      (List.enumFrom 0 pal.paints)).1.length = pal.paints.length := by
    rw [gradPass_length, List.length_replicate]
  rw [hcur]
  rw [colorPass_get pal.paints 0 _ _ (by norm_num) (by norm_num)
    (by rw [hglen]; omega) i]
  rw [gradPass_get pal.paints 0 _ _ (by rw [List.length_replicate]; omega) i]
  have hsome : pal.paints[i]? = some (pal.paints.getD i defaultPaint) := by
    rw [List.getElem?_eq_getElem hi, List.getD_eq_getElem _ _ hi]
  cases hpc : pal.paints.getD i defaultPaint with
  | Color c =>
    have hcol : (pal.paints[i - 0]?).any isColor = true := by
      rw [Nat.sub_zero, hsome, hpc]
      rfl
    rw [if_pos ⟨Nat.zero_le i, hcol⟩]
    rw [if_neg (by simp [isGradient])]
    simp [Nat.sub_zero]
  | LinearGradient g =>
    have hncol : ¬(0 ≤ i ∧ (pal.paints[i - 0]?).any isColor = true) := by
      intro hc
      have := hc.2
      rw [Nat.sub_zero, hsome, hpc] at this
      simp [isColor] at this
    rw [if_neg hncol]
    have hgrad : (pal.paints[i - 0]?).any isGradient = true := by
      rw [Nat.sub_zero, hsome, hpc]
      rfl
    rw [if_pos ⟨Nat.zero_le i, hgrad⟩]
    rw [if_pos (by rfl)]
    simp [Nat.sub_zero]

theorem texAt_eq (pal : Palette) (i : Nat) (hi : i < pal.paints.length) :
    texAt pal i =
      (if isGradient (pal.paints.getD i defaultPaint) = true
        then RectI32.mk ⟨0, (rankOf isGradient pal.paints i : Int)⟩ ⟨256, 1⟩
        else RectI32.mk ⟨(rankOf isColor pal.paints i : Int) % 256,
          (countOf isGradient pal.paints : Int) +
            (rankOf isColor pal.paints i : Int) / 256⟩ ⟨1, 1⟩) := by
  rw [texAt, List.getD_eq_getElem?_getD, build_getElem pal i hi]
  rfl

/-- C4: every LinearGradient entry is assigned exactly a 256×1 rectangle,
placed at row `gradient rank` (palette order, starting at row 0), and no
two assigned rectangles of any two paints share a texel. -/
theorem build_layout_disjoint (pal : Palette) :
    (∀ i, i < pal.paints.length →
      isGradient (pal.paints.getD i defaultPaint) = true →
      texAt pal i =
        RectI32.mk ⟨0, (rankOf isGradient pal.paints i : Int)⟩ ⟨256, 1⟩) ∧
    (∀ i j, i < pal.paints.length → j < pal.paints.length → i ≠ j →
      rectDisjoint (texAt pal i) (texAt pal j)) := by
  constructor
  · intro i hi hg
    rw [texAt_eq pal i hi, if_pos hg]
  · intro i j hi hj hne
    rw [texAt_eq pal i hi, texAt_eq pal j hj]
    by_cases hgi : isGradient (pal.paints.getD i defaultPaint) = true
    · by_cases hgj : isGradient (pal.paints.getD j defaultPaint) = true
      · rw [if_pos hgi, if_pos hgj]
        intro x y h1 h2
        simp only [inRect] at h1 h2
        have hrank : rankOf isGradient pal.paints i ≠
            rankOf isGradient pal.paints j := by
          rcases Nat.lt_trichotomy i j with h | h | h
          · exact Nat.ne_of_lt (rankOf_lt_rankOf _ _ i j h hi hgi)
          · exact absurd h hne
          · exact (Nat.ne_of_lt (rankOf_lt_rankOf _ _ j i h hj hgj)).symm
        omega
      · rw [if_pos hgi, if_neg hgj]
        intro x y h1 h2
        simp only [inRect] at h1 h2
        have hlt : rankOf isGradient pal.paints i <
            countOf isGradient pal.paints :=
          rankOf_lt_countOf _ _ i hi hgi
        omega
    · by_cases hgj : isGradient (pal.paints.getD j defaultPaint) = true
      · rw [if_neg hgi, if_pos hgj]
        intro x y h1 h2
        simp only [inRect] at h1 h2
        have hlt : rankOf isGradient pal.paints j <
            countOf isGradient pal.paints :=
          rankOf_lt_countOf _ _ j hj hgj
        omega
      · rw [if_neg hgi, if_neg hgj]
        have hci : isColor (pal.paints.getD i defaultPaint) = true := by
          cases hpp : pal.paints.getD i defaultPaint with
          | Color c => rfl
          | LinearGradient g => rw [hpp] at hgi; simp [isGradient] at hgi
        have hcj : isColor (pal.paints.getD j defaultPaint) = true := by
          cases hpp : pal.paints.getD j defaultPaint with
          | Color c => rfl
          | LinearGradient g => rw [hpp] at hgj; simp [isGradient] at hgj
        intro x y h1 h2
        simp only [inRect] at h1 h2
        have hrank : rankOf isColor pal.paints i ≠
            rankOf isColor pal.paints j := by
          rcases Nat.lt_trichotomy i j with h | h | h
          · exact Nat.ne_of_lt (rankOf_lt_rankOf _ _ i j h hi hci)
          · exact absurd h hne
          · exact (Nat.ne_of_lt (rankOf_lt_rankOf _ _ j i h hj hcj)).symm
        omega

/-- Witness for build_layout_disjoint at a two-paint palette (one
single-stop gradient and one color). -/
theorem build_layout_disjoint_witness :
    texAt ⟨[Paint.LinearGradient ⟨⟨[⟨0, 0, ⟨255, 0, 0, 255⟩⟩]⟩⟩,
        Paint.Color ⟨0, 255, 0, 255⟩]⟩ 0 =
      RectI32.mk
        ⟨0, (rankOf isGradient
          [Paint.LinearGradient ⟨⟨[⟨0, 0, ⟨255, 0, 0, 255⟩⟩]⟩⟩,
            Paint.Color ⟨0, 255, 0, 255⟩] 0 : Int)⟩ ⟨256, 1⟩ ∧
    rectDisjoint
      (texAt ⟨[Paint.LinearGradient ⟨⟨[⟨0, 0, ⟨255, 0, 0, 255⟩⟩]⟩⟩,
        Paint.Color ⟨0, 255, 0, 255⟩]⟩ 0)
      (texAt ⟨[Paint.LinearGradient ⟨⟨[⟨0, 0, ⟨255, 0, 0, 255⟩⟩]⟩⟩,
        Paint.Color ⟨0, 255, 0, 255⟩]⟩ 1) := by
  exact ⟨(build_layout_disjoint _).1 0 (by decide) (by decide),
    (build_layout_disjoint _).2 0 1 (by decide) (by decide) (by decide)⟩

/-- C5 (amended): the rectangle table always has exactly one entry per
palette paint; and whenever the palette fits the atlas (gradient rows plus
the rows needed by the packed colors at most 256), every rectangle lies
fully inside the fixed [0,256)×[0,256) texture. -/
theorem build_bounds_within_capacity (pal : Palette) :
    pal.build.tex_coords.length = pal.paints.length ∧
    (countOf isGradient pal.paints +
        (countOf isColor pal.paints + 255) / 256 ≤ 256 →
      ∀ i, i < pal.paints.length → rectInBounds (texAt pal i)) := by
  refine ⟨build_length pal, ?_⟩
  intro hfit i hi
  rw [texAt_eq pal i hi]
  by_cases hgi : isGradient (pal.paints.getD i defaultPaint) = true
  · rw [if_pos hgi]
    simp only [rectInBounds]
    have hlt : rankOf isGradient pal.paints i < countOf isGradient pal.paints :=
      rankOf_lt_countOf _ _ i hi hgi
    omega
  · rw [if_neg hgi]
    have hci : isColor (pal.paints.getD i defaultPaint) = true := by
      cases hpp : pal.paints.getD i defaultPaint with
      | Color c => rfl
      | LinearGradient g => rw [hpp] at hgi; simp [isGradient] at hgi
    simp only [rectInBounds]
    have hlt : rankOf isColor pal.paints i < countOf isColor pal.paints :=
      rankOf_lt_countOf _ _ i hi hci
    omega

/-- Witness for build_bounds_within_capacity at a one-color palette. -/
theorem build_bounds_within_capacity_witness :
    (⟨[Paint.Color ⟨1, 1, 1, 1⟩]⟩ : Palette).build.tex_coords.length =
      (⟨[Paint.Color ⟨1, 1, 1, 1⟩]⟩ : Palette).paints.length ∧
    rectInBounds (texAt ⟨[Paint.Color ⟨1, 1, 1, 1⟩]⟩ 0) := by
  refine ⟨(build_bounds_within_capacity _).1, ?_⟩
  exact (build_bounds_within_capacity _).2 (by decide) 0 (by decide)

/-- A palette of 257 pairwise-distinct single-stop gradients: more gradient
rows than the 256-row texture has. -/
def pal257 : Palette :=
  ⟨(List.range 257).map
    (fun k => Paint.LinearGradient ⟨⟨[⟨k, 0, ⟨255, 0, 0, 255⟩⟩]⟩⟩)⟩

set_option maxRecDepth 100000 in
/-- Counterexample to C5 as stated: for the 257-gradient palette the
rectangle of entry 256 (row 256) lies outside the 256×256 texture, so not
every built rectangle is within bounds. -/
theorem build_bounds_counterexample :
    ¬ (∀ i, i < pal257.paints.length → rectInBounds (texAt pal257 i)) := by
  intro h
  have hlen : pal257.paints.length = 257 := by
    simp [pal257]
  have h256 := h 256 (by rw [hlen]; omega)
  have hg : isGradient (pal257.paints.getD 256 defaultPaint) = true := by decide
  have hrank : rankOf isGradient pal257.paints 256 = 256 := by decide
  rw [texAt_eq pal257 256 (by rw [hlen]; omega), if_pos hg, hrank] at h256
  simp only [rectInBounds] at h256
  omega

/-! The gradient example of the spec and the zero-stop failure mode. -/

/-- The example gradient: stops at offsets 0→red, 1/2→green, 1→blue. -/
def exampleGradient : LinearGradient :=
  ((LinearGradient.new.add_color_stop 0 ⟨255, 0, 0, 255⟩).add_color_stop
    (1 / 2) ⟨0, 255, 0, 255⟩).add_color_stop 1 ⟨0, 0, 255, 255⟩

/-- A palette holding just the example gradient. -/
def examplePalette : Palette :=
  (Palette.new.push_paint (Paint.LinearGradient exampleGradient)).2

/-- The materialized pixels of the example palette. -/
def exampleResult : Option PaintData :=
  examplePalette.build.build_paint_data examplePalette

set_option maxRecDepth 100000 in
set_option maxHeartbeats 2000000 in
/-- C6 (amended): the example gradient resamples its three stops across
its reserved 256-texel row 0 by `stops[x mod 3]`: texel x=0 is red, texel
x=255 is red as well (255 mod 3 = 0, not blue as the spec example says),
and every texel of the row carries the color of stop `x mod 3`. -/
theorem gradient_example_sampling :
    exampleGradient.stops.array.map (fun s => s.color) =
      [⟨255, 0, 0, 255⟩, ⟨0, 255, 0, 255⟩, ⟨0, 0, 255, 255⟩] ∧
    exampleResult.isSome = true ∧
    texelBytes exampleResult (0 * 4) = some (255, 0, 0, 255) ∧
    texelBytes exampleResult (255 * 4) = some (255, 0, 0, 255) ∧
    (exampleResult.map fun pd =>
      (List.range 256).all fun x =>
        (pd.texels (4 * x) ==
            (exampleGradient.stops.array.getD (x % 3) default).color.r) &&
        (pd.texels (4 * x + 1) ==
            (exampleGradient.stops.array.getD (x % 3) default).color.g) &&
        (pd.texels (4 * x + 2) ==
            (exampleGradient.stops.array.getD (x % 3) default).color.b) &&
        (pd.texels (4 * x + 3) ==
            (exampleGradient.stops.array.getD (x % 3) default).color.a)) =
      some true := by
  have hgrad : exampleGradient =
      ⟨⟨[⟨0, 0, ⟨255, 0, 0, 255⟩⟩, ⟨32768, 1, ⟨0, 255, 0, 255⟩⟩,
        ⟨65535, 2, ⟨0, 0, 255, 255⟩⟩]⟩⟩ := by
    simp only [exampleGradient, LinearGradient.add_color_stop]
    norm_num
    decide
  refine ⟨?_, ?_, ?_, ?_, ?_⟩ <;>
    · simp only [exampleResult, examplePalette, hgrad]
      decide

set_option maxRecDepth 100000 in
set_option maxHeartbeats 1000000 in
/-- Counterexample to C6 as stated: texel x=255 of the example gradient's
row holds red (stop 255 mod 3 = 0), not blue. -/
theorem gradient_texel255_counterexample :
    texelBytes exampleResult (255 * 4) = some (255, 0, 0, 255) ∧
    texelBytes exampleResult (255 * 4) ≠ some (0, 0, 255, 255) := by
  have hgrad : exampleGradient =
      ⟨⟨[⟨0, 0, ⟨255, 0, 0, 255⟩⟩, ⟨32768, 1, ⟨0, 255, 0, 255⟩⟩,
        ⟨65535, 2, ⟨0, 0, 255, 255⟩⟩]⟩⟩ := by
    simp only [exampleGradient, LinearGradient.add_color_stop]
    norm_num
    decide
  refine ⟨?_, ?_⟩ <;>
    · simp only [exampleResult, examplePalette, hgrad]
      decide

theorem gradRow_empty (pd : PaintData) (tc : RectI32) (g : LinearGradient)
    (hst : g.stops.array = []) :
    ∀ xs : List Nat, xs ≠ [] → gradRow pd tc g xs = none := by
  intro xs hxs
  cases xs with
  | nil => exact absurd rfl hxs
  | cons x rest => simp [gradRow, hst]

theorem enumFrom_getElem? {α : Type} :
    ∀ (l : List α) (k m : Nat),
      (List.enumFrom k l)[m]? = (l[m]?).map (fun a => (k + m, a)) := by
  intro l
  induction l with
  | nil => intro k m; simp [List.enumFrom]
  | cons x xs ih =>
    intro k m
    cases m with
    | zero => simp [List.enumFrom]
    | succ m =>
      rw [show List.enumFrom k (x :: xs) = (k, x) :: List.enumFrom (k + 1) xs
        from rfl]
      rw [List.getElem?_cons_succ, List.getElem?_cons_succ, ih (k + 1) m]
      have : k + 1 + m = k + (m + 1) := by omega
      rw [this]

theorem fillLoop_none (bp : BuiltPalette) :
    ∀ (l : List (Nat × Paint)) (pd : PaintData),
      (∃ pr ∈ l, pr.1 < bp.tex_coords.length ∧
        ∃ g : LinearGradient, pr.2 = Paint.LinearGradient g ∧
          g.stops.array = []) →
      fillLoop bp pd l = none := by
  intro l
  induction l with
  | nil =>
    intro pd h
    obtain ⟨pr, hpr, _⟩ := h
    simp at hpr
  | cons hd tl ih =>
    intro pd h
    obtain ⟨pr, hpr, hlt, g, hg, hstops⟩ := h
    obtain ⟨i, p⟩ := hd
    rcases List.mem_cons.1 hpr with heq | hmem
    · rw [heq] at hg hlt
      have hp : p = Paint.LinearGradient g := hg
      subst hp
      have hti : bp.tex_coords[i]? = some (bp.tex_coords[i]) :=
        List.getElem?_eq_getElem hlt
      have hrow := gradRow_empty pd (bp.tex_coords[i]) g hstops
        (List.range 256) (by simp)
      simp [fillLoop, hti, hrow]
    · cases hti : bp.tex_coords[i]? with
      | none => simp [fillLoop, hti]
      | some tc =>
        cases p with
        | Color c =>
          cases hpp : pd.put_pixel tc.origin c with
          | none => simp [fillLoop, hti, hpp]
          | some pd' =>
            simp only [fillLoop, hti, hpp]
            exact ih pd' ⟨pr, hmem, hlt, g, hg, hstops⟩
        | LinearGradient g2 =>
          cases hgr : gradRow pd tc g2 (List.range 256) with
          | none => simp [fillLoop, hti, hgr]
          | some pd' =>
            simp only [fillLoop, hti, hgr]
            exact ih pd' ⟨pr, hmem, hlt, g, hg, hstops⟩

/-- C7 (amended): nothing stops a zero-stop gradient from reaching the
builder, and when one is present pixel materialization faults (the
zero-divisor stop lookup of the resampling loop, a panic in the source,
modelled as none): it does not produce a buffer. -/
theorem empty_gradient_faults (pal : Palette)
    (h : ∃ g : LinearGradient, Paint.LinearGradient g ∈ pal.paints ∧
      g.stops.array = []) :
    pal.build.build_paint_data pal = none := by
  obtain ⟨g, hmem, hstops⟩ := h
  obtain ⟨i, hienum⟩ := List.mem_iff_getElem?.1 hmem
  have hi : i < pal.paints.length := by
    by_contra hcon
    rw [List.getElem?_eq_none (by omega)] at hienum
    cases hienum
  show fillLoop pal.build { size := ⟨256, 256⟩, texels := fun _ => 0 }
    pal.paints.enum = none
  apply fillLoop_none
  refine ⟨(i, Paint.LinearGradient g), ?_, ?_, g, rfl, hstops⟩
  · apply List.mem_iff_getElem?.2
    refine ⟨i, ?_⟩
    show (List.enumFrom 0 pal.paints)[i]? = _
    rw [enumFrom_getElem?, hienum]
    simp
  · rw [build_length]
    exact hi

/-- Witness for empty_gradient_faults at the one-empty-gradient palette. -/
theorem empty_gradient_faults_witness :
    (Paint.LinearGradient ⟨⟨[]⟩⟩ ∈
        (⟨[Paint.LinearGradient ⟨⟨[]⟩⟩]⟩ : Palette).paints) ∧
    (⟨[Paint.LinearGradient ⟨⟨[]⟩⟩]⟩ : Palette).build.build_paint_data
      ⟨[Paint.LinearGradient ⟨⟨[]⟩⟩]⟩ = none := by
  refine ⟨by decide, ?_⟩
  exact empty_gradient_faults _ ⟨⟨⟨[]⟩⟩, by decide, rfl⟩

/-- Counterexample to C7 as stated: the one-empty-gradient palette reaches
the builder and materialization faults (no buffer is produced), so the
zero-divisor modulo is not avoided. -/
theorem empty_gradient_counterexample :
    ((⟨[Paint.LinearGradient ⟨⟨[]⟩⟩]⟩ : Palette).build.build_paint_data
      ⟨[Paint.LinearGradient ⟨⟨[]⟩⟩]⟩).isSome = false := by
  decide
